import Mathlib

/-!
Verification development for the ISM/MICMAC analysis tool
(SSIM encoder, transitive-closure engine, level partitioner,
MICMAC classifier, and the surrounding UI computations).

Matrices (`number[][]` in the source) are embedded as `List (List Nat)`,
SSIM judgment maps (nested JS objects with missing entries) as
`String → String → Option SSIMValue`, and real-valued arithmetic
(the `N/2` split point, compared against integer powers that are exactly
representable) as `ℚ`.
-/

/-- The four SSIM judgment symbols (`SSIMValue` enum in `types.ts`). -/
inductive SSIMValue
  | V
  | A
  | X
  | O
deriving DecidableEq

/-- An SSIM judgment map, keyed by row factor id then column factor id
(`SSIMData` in `types.ts`: a nested JS object in which entries may be
absent). -/
def SSIMData : Type := String → String → Option SSIMValue

/-- The defaulted judgment lookup used throughout the source:
`ssim[iId]?.[jId] || SSIMValue.O` (a missing entry counts as `O`). -/
def ssimGet (s : SSIMData) (a b : String) : SSIMValue :=
  (s a b).getD SSIMValue.O

/-- The `nextMap` cycle of `toggleValue` in `SSIMGrid.tsx`:
`V ↦ A`, `A ↦ X`, `X ↦ O`, `O ↦ V`. -/
def nextSSIMValue : SSIMValue → SSIMValue
  | SSIMValue.V => SSIMValue.A
  | SSIMValue.A => SSIMValue.X
  | SSIMValue.X => SSIMValue.O
  | SSIMValue.O => SSIMValue.V

/-- `toggleValue` from `SSIMGrid.tsx`: reads the current judgment of the
upper-triangle cell `(iId, jId)` with the default-to-`O` lookup and writes
its successor in the `nextMap` cycle, leaving every other entry of the
nested map unchanged. -/
def toggleValue (s : SSIMData) (iId jId : String) : SSIMData :=
  fun a b =>
    if a = iId ∧ b = jId then
      some (nextSSIMValue (ssimGet s iId jId))
    else
      s a b

theorem ssimGet_none {s : SSIMData} {a b : String} (h : s a b = none) :
    ssimGet s a b = SSIMValue.O := by
  simp [ssimGet, h]

theorem toggleValue_same (s : SSIMData) (iId jId : String) :
    toggleValue s iId jId iId jId = some (nextSSIMValue (ssimGet s iId jId)) := by
  simp [toggleValue]

theorem toggleValue_other (s : SSIMData) (iId jId a b : String)
    (h : ¬(a = iId ∧ b = jId)) : toggleValue s iId jId a b = s a b := by
  simp only [toggleValue, if_neg h]

theorem nextSSIMValue_four (v : SSIMValue) :
    nextSSIMValue (nextSSIMValue (nextSSIMValue (nextSSIMValue v))) = v := by
  cases v <;> rfl

theorem ssimGet_toggle_same (s : SSIMData) (iId jId : String) :
    ssimGet (toggleValue s iId jId) iId jId = nextSSIMValue (ssimGet s iId jId) := by
  simp [ssimGet, toggleValue]

theorem ssimGet_toggle_other (s : SSIMData) (iId jId a b : String)
    (h : ¬(a = iId ∧ b = jId)) :
    ssimGet (toggleValue s iId jId) a b = ssimGet s a b := by
  simp only [ssimGet, toggleValue, if_neg h]

/-- C9: one application of `toggleValue` on the upper-triangle cell
`(iId, jId)` changes only that entry, stepping it along the fixed cycle
`O → V → A → X → O` (a missing entry counting as `O`), and four
applications in a row restore the (defaulted) value of every pair. -/
theorem toggleValue_cycle (s : SSIMData) (iId jId a b : String)
    (h : ¬(a = iId ∧ b = jId)) :
    toggleValue s iId jId iId jId = some (nextSSIMValue (ssimGet s iId jId)) ∧
    toggleValue s iId jId a b = s a b ∧
    (nextSSIMValue SSIMValue.O = SSIMValue.V ∧
      nextSSIMValue SSIMValue.V = SSIMValue.A ∧
      nextSSIMValue SSIMValue.A = SSIMValue.X ∧
      nextSSIMValue SSIMValue.X = SSIMValue.O) ∧
    ssimGet (toggleValue (toggleValue (toggleValue (toggleValue s iId jId)
      iId jId) iId jId) iId jId) iId jId = ssimGet s iId jId ∧
    ssimGet (toggleValue (toggleValue (toggleValue (toggleValue s iId jId)
      iId jId) iId jId) iId jId) a b = ssimGet s a b := by
  refine ⟨toggleValue_same s iId jId, toggleValue_other s iId jId a b h,
    ⟨rfl, rfl, rfl, rfl⟩, ?_, ?_⟩
  · rw [ssimGet_toggle_same, ssimGet_toggle_same, ssimGet_toggle_same,
      ssimGet_toggle_same, nextSSIMValue_four]
  · rw [ssimGet_toggle_other _ _ _ _ _ h, ssimGet_toggle_other _ _ _ _ _ h,
      ssimGet_toggle_other _ _ _ _ _ h, ssimGet_toggle_other _ _ _ _ _ h]

/-- Witness for C9 at a concrete SSIM map (empty map, cell `("F1","F2")`,
other cell `("F1","F3")`). -/
theorem toggleValue_cycle_witness :
    toggleValue (fun _ _ => none) "F1" "F2" "F1" "F2" =
      some (nextSSIMValue (ssimGet (fun _ _ => none) "F1" "F2")) ∧
    toggleValue (fun _ _ => none) "F1" "F2" "F1" "F3" =
      (fun _ _ => none : SSIMData) "F1" "F3" ∧
    (nextSSIMValue SSIMValue.O = SSIMValue.V ∧
      nextSSIMValue SSIMValue.V = SSIMValue.A ∧
      nextSSIMValue SSIMValue.A = SSIMValue.X ∧
      nextSSIMValue SSIMValue.X = SSIMValue.O) ∧
    ssimGet (toggleValue (toggleValue (toggleValue (toggleValue
      (fun _ _ => none) "F1" "F2") "F1" "F2") "F1" "F2") "F1" "F2") "F1" "F2" =
      ssimGet (fun _ _ => none) "F1" "F2" ∧
    ssimGet (toggleValue (toggleValue (toggleValue (toggleValue
      (fun _ _ => none) "F1" "F2") "F1" "F2") "F1" "F2") "F1" "F2") "F1" "F3" =
      ssimGet (fun _ _ => none) "F1" "F3" :=
  toggleValue_cycle (fun _ _ => none) "F1" "F2" "F1" "F3" (by decide)

theorem getD_mem {α : Type} : ∀ (l : List α) (k : Nat) (d : α),
    k < l.length → l.getD k d ∈ l := by
  intro l k d h
  rw [List.getD_eq_getElem l d h]
  exact List.getElem_mem h

/-- Matrix-entry access for `number[][]` matrices (out-of-range reads never
occur on well-formed `N×N` inputs; the total embedding defaults to 0). -/
def mGet (m : List (List Nat)) (i j : Nat) : Nat := (m.getD i []).getD j 0

/-- Driving power of factor `i`: the row-`i` sum, computed as in
`MicmacAnalysis.tsx` (`frm[i].reduce((sum, val) => sum + val, 0)`) and
`ResultsView.tsx`. -/
def drivingPower (frm : List (List Nat)) (i : Nat) : Nat :=
  (frm.getD i []).foldl (fun sum val => sum + val) 0

/-- Dependence power of factor `i`: the column-`i` sum, computed as in
`MicmacAnalysis.tsx` (`frm.reduce((sum, row) => sum + row[i], 0)`) and
`ResultsView.tsx`. -/
def dependencePower (frm : List (List Nat)) (i : Nat) : Nat :=
  frm.foldl (fun sum row => sum + row.getD i 0) 0

/-- The MICMAC split point of `MicmacAnalysis.tsx`:
`factors.length / 2` under JS real division, embedded in `ℚ`. -/
def splitPoint (n : Nat) : ℚ := n / 2

/-- The four MICMAC quadrants. -/
inductive Quadrant
  | autonomous
  | dependent
  | linkage
  | driver
deriving DecidableEq

/-- The quadrant chain of `MicmacAnalysis.tsx` (`quadrants` useMemo):
the first matching branch of the `if/else if` cascade wins, the final
`else` being the driver quadrant. -/
def classifyQuadrant (split : ℚ) (driving dependence : Nat) : Quadrant :=
  if (driving : ℚ) ≤ split ∧ (dependence : ℚ) ≤ split then Quadrant.autonomous
  else if (driving : ℚ) ≤ split ∧ split < (dependence : ℚ) then Quadrant.dependent
  else if split < (driving : ℚ) ∧ split < (dependence : ℚ) then Quadrant.linkage
  else Quadrant.driver

/-- Quadrant assignment of factor `i` from the FRM, with split `N/2`. -/
def micmacQuadrant (n : Nat) (frm : List (List Nat)) (i : Nat) : Quadrant :=
  classifyQuadrant (splitPoint n) (drivingPower frm i) (dependencePower frm i)

theorem foldl_add_eq (l : List Nat) : ∀ a : Nat,
    l.foldl (fun sum val => sum + val) a = a + l.sum := by
  induction l with
  | nil => intro a; simp
  | cons x l ih => intro a; simp [ih, Nat.add_assoc]

theorem foldl_add_map {α : Type} (f : α → Nat) (l : List α) : ∀ a : Nat,
    l.foldl (fun sum x => sum + f x) a = a + (l.map f).sum := by
  induction l with
  | nil => intro a; simp
  | cons x l ih => intro a; simp [ih, Nat.add_assoc]

theorem list_sum_eq_range (l : List Nat) :
    l.sum = ∑ j ∈ Finset.range l.length, l.getD j 0 := by
  induction l with
  | nil => simp
  | cons x l ih =>
    rw [List.sum_cons, List.length_cons, Finset.sum_range_succ', ih]
    simp [List.getD, Nat.add_comm]

theorem drivingPower_eq {frm : List (List Nat)} {n : Nat}
    (hrows : ∀ row ∈ frm, row.length = n) (hlen : frm.length = n)
    {i : Nat} (hi : i < n) :
    drivingPower frm i = ∑ j ∈ Finset.range n, mGet frm i j := by
  have hmem : frm.getD i [] ∈ frm :=
    getD_mem frm i [] (by rw [hlen]; exact hi)
  have hrl : (frm.getD i []).length = n := hrows _ hmem
  rw [drivingPower, foldl_add_eq, Nat.zero_add, list_sum_eq_range, hrl]
  rfl

theorem dependencePower_eq {frm : List (List Nat)} {n : Nat}
    (hlen : frm.length = n) (i : Nat) :
    dependencePower frm i = ∑ j ∈ Finset.range n, mGet frm j i := by
  rw [dependencePower, foldl_add_map, Nat.zero_add, list_sum_eq_range]
  rw [List.length_map, hlen]
  refine Finset.sum_congr rfl ?_
  intro j hj
  rw [Finset.mem_range] at hj
  have hj' : j < frm.length := by rw [hlen]; exact hj
  have hj'' : j < (frm.map (fun row => row.getD i 0)).length := by
    rw [List.length_map]; exact hj'
  rw [mGet, List.getD_eq_getElem _ _ hj'', List.getD_eq_getElem _ _ hj',
    List.getElem_map]

/-- C2: for an `N×N` FRM with reflexive diagonal, the program's driving
power of factor `i` is the row-`i` sum and its dependence power is the
column-`i` sum, and both are at least 1 (the reflexive self-entry is part
of the sum). -/
theorem powers_row_col_sums (frm : List (List Nat)) (n i : Nat)
    (hlen : frm.length = n) (hrows : ∀ row ∈ frm, row.length = n)
    (hdiag : ∀ k, k < n → mGet frm k k = 1) (hi : i < n) :
    drivingPower frm i = ∑ j ∈ Finset.range n, mGet frm i j ∧
    dependencePower frm i = ∑ j ∈ Finset.range n, mGet frm j i ∧
    1 ≤ drivingPower frm i ∧ 1 ≤ dependencePower frm i := by
  refine ⟨drivingPower_eq hrows hlen hi, dependencePower_eq hlen i, ?_, ?_⟩
  · rw [drivingPower_eq hrows hlen hi]
    calc 1 = mGet frm i i := (hdiag i hi).symm
    _ ≤ ∑ j ∈ Finset.range n, mGet frm i j :=
      Finset.single_le_sum (fun j _ => Nat.zero_le _) (Finset.mem_range.mpr hi)
  · rw [dependencePower_eq hlen i]
    calc 1 = mGet frm i i := (hdiag i hi).symm
    _ ≤ ∑ j ∈ Finset.range n, mGet frm j i :=
      @Finset.single_le_sum ℕ ℕ _ (fun j => mGet frm j i) (Finset.range n)
        (fun j _ => Nat.zero_le _) i (Finset.mem_range.mpr hi)

/-- Witness for C2 at the concrete FRM `[[1,1],[0,1]]`. -/
theorem powers_row_col_sums_witness :
    drivingPower [[1, 1], [0, 1]] 0 = ∑ j ∈ Finset.range 2, mGet [[1, 1], [0, 1]] 0 j ∧
    dependencePower [[1, 1], [0, 1]] 0 = ∑ j ∈ Finset.range 2, mGet [[1, 1], [0, 1]] j 0 ∧
    1 ≤ drivingPower [[1, 1], [0, 1]] 0 ∧ 1 ≤ dependencePower [[1, 1], [0, 1]] 0 :=
  powers_row_col_sums [[1, 1], [0, 1]] 2 0 (by decide)
    (by intro row hrow; fin_cases hrow <;> rfl)
    (by decide) (by decide)

/-- C4: over any `N×N` 0/1 matrix, the total of all driving powers equals
the total of all dependence powers, and both equal the number of 1-cells
of the matrix. -/
theorem powers_total_balance (frm : List (List Nat)) (n : Nat)
    (hlen : frm.length = n) (hrows : ∀ row ∈ frm, row.length = n)
    (h01 : ∀ i j, i < n → j < n → mGet frm i j = 0 ∨ mGet frm i j = 1) :
    (∑ i ∈ Finset.range n, drivingPower frm i) =
      (∑ i ∈ Finset.range n, dependencePower frm i) ∧
    (∑ i ∈ Finset.range n, drivingPower frm i) =
      ((Finset.range n ×ˢ Finset.range n).filter
        (fun p => mGet frm p.1 p.2 = 1)).card := by
  have hdrv : (∑ i ∈ Finset.range n, drivingPower frm i) =
      ∑ i ∈ Finset.range n, ∑ j ∈ Finset.range n, mGet frm i j :=
    Finset.sum_congr rfl fun i hi =>
      drivingPower_eq hrows hlen (Finset.mem_range.mp hi)
  have hdep : (∑ i ∈ Finset.range n, dependencePower frm i) =
      ∑ i ∈ Finset.range n, ∑ j ∈ Finset.range n, mGet frm j i :=
    Finset.sum_congr rfl fun i _ => dependencePower_eq hlen i
  constructor
  · rw [hdrv, hdep, Finset.sum_comm]
  · rw [hdrv, Finset.card_filter, ← Finset.sum_product']
    refine Finset.sum_congr rfl ?_
    intro p hp
    rw [Finset.mem_product, Finset.mem_range, Finset.mem_range] at hp
    rcases h01 p.1 p.2 hp.1 hp.2 with h | h <;> rw [h] <;> simp

/-- Witness for C4 at the concrete FRM `[[1,1],[0,1]]` (three 1-cells). -/
theorem powers_total_balance_witness :
    (∑ i ∈ Finset.range 2, drivingPower [[1, 1], [0, 1]] i) =
      (∑ i ∈ Finset.range 2, dependencePower [[1, 1], [0, 1]] i) ∧
    (∑ i ∈ Finset.range 2, drivingPower [[1, 1], [0, 1]] i) =
      ((Finset.range 2 ×ˢ Finset.range 2).filter
        (fun p => mGet [[1, 1], [0, 1]] p.1 p.2 = 1)).card :=
  powers_total_balance [[1, 1], [0, 1]] 2 (by decide)
    (by intro row hrow; fin_cases hrow <;> rfl)
    (by intro i j hi hj; interval_cases i <;> interval_cases j <;> decide)

/-- C3: the MICMAC split point is the exact value `N/2`, never rounded to
an integer: `splitPoint 11 = 5.5`, `splitPoint 12 = 6`, and twice the
split point recovers `N` exactly for every factor count `N`. -/
theorem splitPoint_exact (n : Nat) :
    splitPoint 11 = (5.5 : ℚ) ∧ splitPoint 12 = (6 : ℚ) ∧
    (splitPoint 11 : ℚ) ≠ (5 : ℚ) ∧ (splitPoint 11 : ℚ) ≠ (6 : ℚ) ∧
    2 * splitPoint n = (n : ℚ) := by
  refine ⟨by norm_num [splitPoint], by norm_num [splitPoint],
    by norm_num [splitPoint], by norm_num [splitPoint], ?_⟩
  rw [splitPoint]
  ring

/-- C1: the quadrant assignment of `MicmacAnalysis.tsx` follows exactly
the `≤ split` / `> split` boundary convention with `split = N/2`; in
particular a factor whose powers equal the split point exactly is
classified on the low side (autonomous, not linkage). -/
theorem micmacQuadrant_rule (n : Nat) (frm : List (List Nat)) (i : Nat) :
    ((drivingPower frm i : ℚ) ≤ splitPoint n →
      (dependencePower frm i : ℚ) ≤ splitPoint n →
      micmacQuadrant n frm i = Quadrant.autonomous) ∧
    ((drivingPower frm i : ℚ) ≤ splitPoint n →
      splitPoint n < (dependencePower frm i : ℚ) →
      micmacQuadrant n frm i = Quadrant.dependent) ∧
    (splitPoint n < (drivingPower frm i : ℚ) →
      splitPoint n < (dependencePower frm i : ℚ) →
      micmacQuadrant n frm i = Quadrant.linkage) ∧
    (splitPoint n < (drivingPower frm i : ℚ) →
      (dependencePower frm i : ℚ) ≤ splitPoint n →
      micmacQuadrant n frm i = Quadrant.driver) ∧
    ((drivingPower frm i : ℚ) = splitPoint n →
      (dependencePower frm i : ℚ) = splitPoint n →
      micmacQuadrant n frm i = Quadrant.autonomous) := by
  refine ⟨?_, ?_, ?_, ?_, ?_⟩
  · intro h1 h2
    rw [micmacQuadrant, classifyQuadrant, if_pos ⟨h1, h2⟩]
  · intro h1 h2
    rw [micmacQuadrant, classifyQuadrant,
      if_neg (fun hc => absurd hc.2 (not_le.mpr h2)), if_pos ⟨h1, h2⟩]
  · intro h1 h2
    rw [micmacQuadrant, classifyQuadrant,
      if_neg (fun hc => absurd hc.1 (not_le.mpr h1)),
      if_neg (fun hc => absurd hc.1 (not_le.mpr h1)), if_pos ⟨h1, h2⟩]
  · intro h1 h2
    rw [micmacQuadrant, classifyQuadrant,
      if_neg (fun hc => absurd hc.1 (not_le.mpr h1)),
      if_neg (fun hc => absurd hc.1 (not_le.mpr h1)),
      if_neg (fun hc => absurd hc.2 (not_lt.mpr h2))]
  · intro h1 h2
    rw [micmacQuadrant, classifyQuadrant, if_pos ⟨le_of_eq h1, le_of_eq h2⟩]

/-- Witness for C1 at the identity FRM with `N = 2`: both powers equal the
split point `1` exactly and the factor lands in the autonomous quadrant. -/
theorem micmacQuadrant_rule_witness :
    micmacQuadrant 2 [[1, 0], [0, 1]] 0 = Quadrant.autonomous :=
  (micmacQuadrant_rule 2 [[1, 0], [0, 1]] 0).1
    (by norm_num [drivingPower, splitPoint])
    (by norm_num [dependencePower, splitPoint])

/-- Modelled from the spec: the SSIM Encoder of `src/services/ismLogic.ts`
(the file is not part of the available sources; only its callers are).
Spec §4.1 / §3: `IRM[i][i] = 1` always; for `i < j` the upper-triangle
judgment for `(ids[i], ids[j])` is looked up once per unordered pair, with
a missing entry treated as `O`; `IRM[i][j] = 1` iff that judgment is `V`
or `X`, and `IRM[j][i] = 1` iff it is `A` or `X`. -/
def irmEntry (ids : List String) (s : SSIMData) (i j : Nat) : Nat :=
  if i = j then 1
  else if i < j then
    match ssimGet s (ids.getD i "") (ids.getD j "") with
    | SSIMValue.V => 1
    | SSIMValue.X => 1
    | _ => 0
  else
    match ssimGet s (ids.getD j "") (ids.getD i "") with
    | SSIMValue.A => 1
    | SSIMValue.X => 1
    | _ => 0

/-- Modelled from the spec: the full `N×N` Initial Reachability Matrix
produced by the SSIM Encoder (§4.1). -/
def encodeIRM (n : Nat) (ids : List String) (s : SSIMData) : List (List Nat) :=
  (List.range n).map fun i => (List.range n).map fun j => irmEntry ids s i j

/-- Modelled from the spec: the Floyd–Warshall reachability iteration of
the Transitive Closure Engine (§4.2).  `fwAux r k` is the relation after
the passes for intermediate indices `0, …, k-1`
(`FRM[i][j] |= FRM[i][k] & FRM[k][j]`). -/
def fwAux (r : Nat → Nat → Bool) : Nat → Nat → Nat → Bool
  | 0 => r
  | k + 1 => fun i j =>
    let p := fwAux r k
    p i j || (p i k && p k j)

/-- Boolean adjacency view of a 0/1 matrix. -/
def matRel (m : List (List Nat)) : Nat → Nat → Bool :=
  fun i j => mGet m i j == 1

/-- Modelled from the spec: the Final Reachability Matrix as produced by
the Transitive Closure Engine (§4.2), a single Floyd–Warshall pass over
all `n` intermediate indices. -/
def closureMatrix (n : Nat) (m : List (List Nat)) : List (List Nat) :=
  (List.range n).map fun i => (List.range n).map fun j =>
    if fwAux (matRel m) n i j then 1 else 0

/-- One stratum of the level partition (`{ level, elements }`). -/
structure ISMLevel where
  level : Nat
  elements : List Nat
deriving DecidableEq

/-- Modelled from the spec: the reachability set `R(i)` of §4.3, restricted
to the indices still remaining. -/
def reachSet (r : Nat → Nat → Bool) (remaining : List Nat) (i : Nat) : List Nat :=
  remaining.filter fun j => r i j

/-- Modelled from the spec: the antecedent set `A(i)` of §4.3, restricted
to the indices still remaining. -/
def antSet (r : Nat → Nat → Bool) (remaining : List Nat) (i : Nat) : List Nat :=
  remaining.filter fun j => r j i

/-- Modelled from the spec: the intersection `I(i) = R(i) ∩ A(i)` of §4.3. -/
def interSet (r : Nat → Nat → Bool) (remaining : List Nat) (i : Nat) : List Nat :=
  (reachSet r remaining i).filter fun j => (antSet r remaining i).contains j

/-- Modelled from the spec: the level condition `R(i) == I(i)` of §4.3
deciding that `i` belongs to the current level. -/
def levelCond (r : Nat → Nat → Bool) (remaining : List Nat) (i : Nat) : Bool :=
  reachSet r remaining i == interSet r remaining i

/-- Modelled from the spec: the indices assigned to the current level
(insertion order = ascending factor index, §4.3 tie-break). -/
def levelAssign (r : Nat → Nat → Bool) (remaining : List Nat) : List Nat :=
  remaining.filter (levelCond r remaining)

/-- Modelled from the spec: removal of the current level's indices from
the remaining set (step 4 of §4.3). -/
def levelRemove (r : Nat → Nat → Bool) (remaining : List Nat) : List Nat :=
  remaining.filter fun i => !(levelAssign r remaining).contains i

/-- `levelRemove` iterated `t` times. -/
def removeIter (r : Nat → Nat → Bool) (remaining : List Nat) : Nat → List Nat
  | 0 => remaining
  | t + 1 => removeIter r (levelRemove r remaining) t

/-- Modelled from the spec: the level-partition loop of §4.3, with fuel
bounding the number of iterations (at most `N` are ever needed); a round
that assigns no index on a non-empty remaining set is the fatal
internal-consistency case of §7 and stops the loop. -/
def partitionAux (r : Nat → Nat → Bool) : Nat → List Nat → Nat → List ISMLevel
  | 0, _, _ => []
  | fuel + 1, remaining, lvl =>
    if remaining.isEmpty then []
    else
      let assigned := levelAssign r remaining
      if assigned.isEmpty then []
      else
        ⟨lvl, assigned⟩ ::
          partitionAux r fuel (levelRemove r remaining) (lvl + 1)

/-- Modelled from the spec: the full level partition of `0..N-1`, level
numbering starting at 1. -/
def partitionLevels (n : Nat) (r : Nat → Nat → Bool) : List ISMLevel :=
  partitionAux r n (List.range n) 1

/-- The analysis result record (`ISMResult` in `types.ts`), restricted to
the fields with a specified contract; the spec flags the additional
`canonicalMatrix` field as ambiguous and it is not modelled. -/
structure ISMResult where
  initialReachabilityMatrix : List (List Nat)
  finalReachabilityMatrix : List (List Nat)
  levels : List ISMLevel

/-- Modelled from the spec: `runISMAnalysis` from `src/services/ismLogic.ts`
(§2, §4): encoder → closure → partitioner, the partitioner reading the
FRM. -/
def runISMAnalysis (n : Nat) (ids : List String) (s : SSIMData) : ISMResult :=
  let irm := encodeIRM n ids s
  let frm := closureMatrix n irm
  { initialReachabilityMatrix := irm
    finalReachabilityMatrix := frm
    levels := partitionLevels n (matRel frm) }

/-- Paths through relation `r` whose intermediate vertices are all `< k`
(the invariant of the Floyd–Warshall pass). -/
inductive PathBelow (r : Nat → Nat → Bool) (k : Nat) : Nat → Nat → Prop
  | base (i j : Nat) : r i j = true → PathBelow r k i j
  | comp (i m j : Nat) : m < k → PathBelow r k i m → PathBelow r k m j →
      PathBelow r k i j

theorem fwAux_mono {r : Nat → Nat → Bool} {i j : Nat} (k : Nat)
    (h : r i j = true) : fwAux r k i j = true := by
  induction k with
  | zero => exact h
  | succ k ih => simp [fwAux, ih]

theorem pathBelow_mono {r : Nat → Nat → Bool} {k l i j : Nat} (hkl : k ≤ l)
    (h : PathBelow r k i j) : PathBelow r l i j := by
  induction h with
  | base i j hr => exact PathBelow.base i j hr
  | comp i m j hm _ _ ih1 ih2 =>
    exact PathBelow.comp i m j (Nat.lt_of_lt_of_le hm hkl) ih1 ih2

theorem pathBelow_zero {r : Nat → Nat → Bool} {i j : Nat}
    (h : PathBelow r 0 i j) : r i j = true := by
  induction h with
  | base i j hr => exact hr
  | comp i m j hm _ _ _ _ => exact absurd hm (Nat.not_lt_zero m)

theorem pathBelow_decomp {r : Nat → Nat → Bool} {k i j : Nat}
    (h : PathBelow r (k + 1) i j) :
    PathBelow r k i j ∨ (PathBelow r k i k ∧ PathBelow r k k j) := by
  induction h with
  | base i j hr => exact Or.inl (PathBelow.base i j hr)
  | comp i m j hm _ _ ih1 ih2 =>
    rcases Nat.lt_succ_iff_lt_or_eq.mp hm with hmk | hmk
    · rcases ih1 with p1 | ⟨p1a, p1b⟩
      · rcases ih2 with p2 | ⟨p2a, p2b⟩
        · exact Or.inl (PathBelow.comp i m j hmk p1 p2)
        · exact Or.inr ⟨PathBelow.comp i m k hmk p1 p2a, p2b⟩
      · rcases ih2 with p2 | ⟨p2a, p2b⟩
        · exact Or.inr ⟨p1a, PathBelow.comp k m j hmk p1b p2⟩
        · exact Or.inr ⟨p1a, p2b⟩
    · rw [hmk] at ih1 ih2
      have hik : PathBelow r k i k := by
        rcases ih1 with p | ⟨pa, _⟩
        · exact p
        · exact pa
      have hkj : PathBelow r k k j := by
        rcases ih2 with p | ⟨_, pb⟩
        · exact p
        · exact pb
      exact Or.inr ⟨hik, hkj⟩

theorem fwAux_iff_path {r : Nat → Nat → Bool} :
    ∀ (k i j : Nat), fwAux r k i j = true ↔ PathBelow r k i j := by
  intro k
  induction k with
  | zero => exact fun i j => ⟨fun h => PathBelow.base i j h, pathBelow_zero⟩
  | succ k ih =>
    intro i j
    constructor
    · intro h
      simp only [fwAux, Bool.or_eq_true, Bool.and_eq_true] at h
      rcases h with h | ⟨h1, h2⟩
      · exact pathBelow_mono (Nat.le_succ k) ((ih i j).mp h)
      · exact PathBelow.comp i k j (Nat.lt_succ_self k)
          (pathBelow_mono (Nat.le_succ k) ((ih i k).mp h1))
          (pathBelow_mono (Nat.le_succ k) ((ih k j).mp h2))
    · intro h
      simp only [fwAux, Bool.or_eq_true, Bool.and_eq_true]
      rcases pathBelow_decomp h with p | ⟨pa, pb⟩
      · exact Or.inl ((ih i j).mpr p)
      · exact Or.inr ⟨(ih i k).mpr pa, (ih k j).mpr pb⟩

theorem fwAux_trans {r : Nat → Nat → Bool} {n i m j : Nat} (hm : m < n)
    (h1 : fwAux r n i m = true) (h2 : fwAux r n m j = true) :
    fwAux r n i j = true :=
  (fwAux_iff_path n i j).mpr
    (PathBelow.comp i m j hm ((fwAux_iff_path n i m).mp h1)
      ((fwAux_iff_path n m j).mp h2))

theorem rangeMap_getD {α : Type} (f : Nat → α) {n i : Nat} (hi : i < n)
    (d : α) : ((List.range n).map f).getD i d = f i := by
  have hlen : i < ((List.range n).map f).length := by
    rw [List.length_map, List.length_range]; exact hi
  rw [List.getD_eq_getElem _ _ hlen, List.getElem_map, List.getElem_range]

theorem mGet_closure {n : Nat} {m : List (List Nat)} {i j : Nat}
    (hi : i < n) (hj : j < n) :
    mGet (closureMatrix n m) i j =
      if fwAux (matRel m) n i j then 1 else 0 := by
  rw [closureMatrix, mGet, rangeMap_getD _ hi, rangeMap_getD _ hj]

theorem mGet_encodeIRM {n : Nat} {ids : List String} {s : SSIMData}
    {i j : Nat} (hi : i < n) (hj : j < n) :
    mGet (encodeIRM n ids s) i j = irmEntry ids s i j := by
  rw [encodeIRM, mGet, rangeMap_getD _ hi, rangeMap_getD _ hj]

theorem irmEntry_diag (ids : List String) (s : SSIMData) (i : Nat) :
    irmEntry ids s i i = 1 := by
  rw [irmEntry, if_pos rfl]

/-- C5: for every factor count and SSIM input, the FRM returned by
`runISMAnalysis` is a preorder containing the IRM: every diagonal entry is
1, reachability composes transitively, and every IRM edge is an FRM
edge. -/
theorem frm_preorder_superset (n : Nat) (ids : List String) (s : SSIMData)
    (i j k : Nat) (hi : i < n) (hj : j < n) (hk : k < n) :
    mGet (runISMAnalysis n ids s).finalReachabilityMatrix i i = 1 ∧
    (mGet (runISMAnalysis n ids s).finalReachabilityMatrix i k = 1 →
      mGet (runISMAnalysis n ids s).finalReachabilityMatrix k j = 1 →
      mGet (runISMAnalysis n ids s).finalReachabilityMatrix i j = 1) ∧
    (mGet (runISMAnalysis n ids s).initialReachabilityMatrix i j = 1 →
      mGet (runISMAnalysis n ids s).finalReachabilityMatrix i j = 1) := by
  have hrel : ∀ a b : Nat, a < n → b < n →
      (mGet (runISMAnalysis n ids s).finalReachabilityMatrix a b = 1 ↔
        fwAux (matRel (encodeIRM n ids s)) n a b = true) := by
    intro a b ha hb
    show mGet (closureMatrix n (encodeIRM n ids s)) a b = 1 ↔ _
    rw [mGet_closure ha hb]
    cases hfw : fwAux (matRel (encodeIRM n ids s)) n a b <;> simp [hfw]
  refine ⟨?_, ?_, ?_⟩
  · refine (hrel i i hi hi).mpr (fwAux_mono n ?_)
    show (mGet (encodeIRM n ids s) i i == 1) = true
    rw [mGet_encodeIRM hi hi, irmEntry_diag]
    rfl
  · intro h1 h2
    exact (hrel i j hi hj).mpr
      (fwAux_trans hk ((hrel i k hi hk).mp h1) ((hrel k j hk hj).mp h2))
  · intro h
    refine (hrel i j hi hj).mpr (fwAux_mono n ?_)
    show (mGet (encodeIRM n ids s) i j == 1) = true
    have : mGet (runISMAnalysis n ids s).initialReachabilityMatrix i j =
        mGet (encodeIRM n ids s) i j := rfl
    rw [this] at h
    rw [h]
    rfl

/-- Witness for C5 at the 3-factor scenario `A–B = V`, `B–C = V`,
`A–C = O` (the FRM adds the transitive edge `A → C`). -/
theorem frm_preorder_superset_witness :
    mGet (runISMAnalysis 3 ["A", "B", "C"]
      (fun a b => if a = "A" ∧ b = "B" then some SSIMValue.V
        else if a = "B" ∧ b = "C" then some SSIMValue.V
        else none)).finalReachabilityMatrix 0 0 = 1 ∧
    (mGet (runISMAnalysis 3 ["A", "B", "C"]
      (fun a b => if a = "A" ∧ b = "B" then some SSIMValue.V
        else if a = "B" ∧ b = "C" then some SSIMValue.V
        else none)).finalReachabilityMatrix 0 1 = 1 →
      mGet (runISMAnalysis 3 ["A", "B", "C"]
      (fun a b => if a = "A" ∧ b = "B" then some SSIMValue.V
        else if a = "B" ∧ b = "C" then some SSIMValue.V
        else none)).finalReachabilityMatrix 1 2 = 1 →
      mGet (runISMAnalysis 3 ["A", "B", "C"]
      (fun a b => if a = "A" ∧ b = "B" then some SSIMValue.V
        else if a = "B" ∧ b = "C" then some SSIMValue.V
        else none)).finalReachabilityMatrix 0 2 = 1) ∧
    (mGet (runISMAnalysis 3 ["A", "B", "C"]
      (fun a b => if a = "A" ∧ b = "B" then some SSIMValue.V
        else if a = "B" ∧ b = "C" then some SSIMValue.V
        else none)).initialReachabilityMatrix 0 2 = 1 →
      mGet (runISMAnalysis 3 ["A", "B", "C"]
      (fun a b => if a = "A" ∧ b = "B" then some SSIMValue.V
        else if a = "B" ∧ b = "C" then some SSIMValue.V
        else none)).finalReachabilityMatrix 0 2 = 1) :=
  frm_preorder_superset 3 ["A", "B", "C"]
    (fun a b => if a = "A" ∧ b = "B" then some SSIMValue.V
      else if a = "B" ∧ b = "C" then some SSIMValue.V
      else none) 0 2 1 (by decide) (by decide) (by decide)

theorem irmEntry_upper {i j : Nat} (ids : List String) (s : SSIMData)
    (hij : i < j) :
    irmEntry ids s i j =
      (match ssimGet s (ids.getD i "") (ids.getD j "") with
        | SSIMValue.V => 1
        | SSIMValue.X => 1
        | _ => 0) := by
  rw [irmEntry, if_neg (Nat.ne_of_lt hij), if_pos hij]

theorem irmEntry_lower {i j : Nat} (ids : List String) (s : SSIMData)
    (hij : i < j) :
    irmEntry ids s j i =
      (match ssimGet s (ids.getD i "") (ids.getD j "") with
        | SSIMValue.A => 1
        | SSIMValue.X => 1
        | _ => 0) := by
  rw [irmEntry, if_neg (Nat.ne_of_gt hij),
    if_neg (Nat.not_lt.mpr (Nat.le_of_lt hij))]

/-- C6: for distinct factors `i < j`, the IRM produced from the SSIM has
`IRM[i][j] = 1` iff the upper-triangle judgment for `(i, j)` is `V` or
`X`, `IRM[j][i] = 1` iff it is `A` or `X`, both entries 0 iff it is `O`,
and a missing judgment is treated exactly like `O` (the lookup defaults,
no error is raised — the encoder is a total function). -/
theorem irm_from_ssim (n : Nat) (ids : List String) (s : SSIMData)
    (i j : Nat) (hij : i < j) (hj : j < n) :
    (mGet (runISMAnalysis n ids s).initialReachabilityMatrix i j = 1 ↔
      ssimGet s (ids.getD i "") (ids.getD j "") = SSIMValue.V ∨
      ssimGet s (ids.getD i "") (ids.getD j "") = SSIMValue.X) ∧
    (mGet (runISMAnalysis n ids s).initialReachabilityMatrix j i = 1 ↔
      ssimGet s (ids.getD i "") (ids.getD j "") = SSIMValue.A ∨
      ssimGet s (ids.getD i "") (ids.getD j "") = SSIMValue.X) ∧
    ((mGet (runISMAnalysis n ids s).initialReachabilityMatrix i j = 0 ∧
      mGet (runISMAnalysis n ids s).initialReachabilityMatrix j i = 0) ↔
      ssimGet s (ids.getD i "") (ids.getD j "") = SSIMValue.O) ∧
    (s (ids.getD i "") (ids.getD j "") = none →
      ssimGet s (ids.getD i "") (ids.getD j "") = SSIMValue.O) := by
  have hi : i < n := Nat.lt_trans hij hj
  have e1 : mGet (runISMAnalysis n ids s).initialReachabilityMatrix i j =
      irmEntry ids s i j := mGet_encodeIRM hi hj
  have e2 : mGet (runISMAnalysis n ids s).initialReachabilityMatrix j i =
      irmEntry ids s j i := mGet_encodeIRM hj hi
  rw [e1, e2, irmEntry_upper ids s hij, irmEntry_lower ids s hij]
  refine ⟨?_, ?_, ?_, fun hnone => ssimGet_none hnone⟩ <;>
    rcases hv : ssimGet s (ids.getD i "") (ids.getD j "") <;> simp [hv]

/-- Witness for C6 at the 3-factor scenario (`A–B = V`, `B–C` missing). -/
theorem irm_from_ssim_witness :
    (mGet (runISMAnalysis 3 ["A", "B", "C"]
      (fun a b => if a = "A" ∧ b = "B" then some SSIMValue.V else none)
      ).initialReachabilityMatrix 1 2 = 1 ↔
      ssimGet (fun a b => if a = "A" ∧ b = "B" then some SSIMValue.V else none)
        (["A", "B", "C"].getD 1 "") (["A", "B", "C"].getD 2 "") = SSIMValue.V ∨
      ssimGet (fun a b => if a = "A" ∧ b = "B" then some SSIMValue.V else none)
        (["A", "B", "C"].getD 1 "") (["A", "B", "C"].getD 2 "") = SSIMValue.X) ∧
    (mGet (runISMAnalysis 3 ["A", "B", "C"]
      (fun a b => if a = "A" ∧ b = "B" then some SSIMValue.V else none)
      ).initialReachabilityMatrix 2 1 = 1 ↔
      ssimGet (fun a b => if a = "A" ∧ b = "B" then some SSIMValue.V else none)
        (["A", "B", "C"].getD 1 "") (["A", "B", "C"].getD 2 "") = SSIMValue.A ∨
      ssimGet (fun a b => if a = "A" ∧ b = "B" then some SSIMValue.V else none)
        (["A", "B", "C"].getD 1 "") (["A", "B", "C"].getD 2 "") = SSIMValue.X) ∧
    ((mGet (runISMAnalysis 3 ["A", "B", "C"]
      (fun a b => if a = "A" ∧ b = "B" then some SSIMValue.V else none)
      ).initialReachabilityMatrix 1 2 = 0 ∧
      mGet (runISMAnalysis 3 ["A", "B", "C"]
      (fun a b => if a = "A" ∧ b = "B" then some SSIMValue.V else none)
      ).initialReachabilityMatrix 2 1 = 0) ↔
      ssimGet (fun a b => if a = "A" ∧ b = "B" then some SSIMValue.V else none)
        (["A", "B", "C"].getD 1 "") (["A", "B", "C"].getD 2 "") = SSIMValue.O) ∧
    ((fun a b => if a = "A" ∧ b = "B" then some SSIMValue.V else none :
        SSIMData) (["A", "B", "C"].getD 1 "") (["A", "B", "C"].getD 2 "") = none →
      ssimGet (fun a b => if a = "A" ∧ b = "B" then some SSIMValue.V else none)
        (["A", "B", "C"].getD 1 "") (["A", "B", "C"].getD 2 "") = SSIMValue.O) :=
  irm_from_ssim 3 ["A", "B", "C"]
    (fun a b => if a = "A" ∧ b = "B" then some SSIMValue.V else none)
    1 2 (by decide) (by decide)

theorem levelCond_iff (R : Nat → Nat → Bool) (rem : List Nat) (i : Nat) :
    levelCond R rem i = true ↔ ∀ j ∈ rem, R i j = true → R j i = true := by
  rw [levelCond, beq_iff_eq, interSet, eq_comm, List.filter_eq_self]
  constructor
  · intro h j hj hrij
    have hjr : j ∈ reachSet R rem i := List.mem_filter.mpr ⟨hj, hrij⟩
    have hmem : j ∈ antSet R rem i := List.elem_iff.mp (h j hjr)
    exact (List.mem_filter.mp hmem).2
  · intro h a ha
    obtain ⟨har, hria⟩ := List.mem_filter.mp ha
    exact List.elem_iff.mpr (List.mem_filter.mpr ⟨har, h a har hria⟩)

theorem mem_levelAssign {R : Nat → Nat → Bool} {rem : List Nat} {i : Nat} :
    i ∈ levelAssign R rem ↔ i ∈ rem ∧ levelCond R rem i = true :=
  List.mem_filter

theorem exists_levelCond {n : Nat} {R : Nat → Nat → Bool}
    (hrefl : ∀ i, i < n → R i i = true)
    (htrans : ∀ i j k, i < n → j < n → k < n →
      R i j = true → R j k = true → R i k = true) :
    ∀ (s : Nat) (rem : List Nat), rem.Nodup → (∀ i ∈ rem, i < n) →
      ∀ i ∈ rem, (reachSet R rem i).length ≤ s →
      ∃ m, m ∈ rem ∧ levelCond R rem m = true := by
  intro s
  induction s with
  | zero =>
    intro rem _ hsub i hi hlen
    exfalso
    have hii : i ∈ reachSet R rem i :=
      List.mem_filter.mpr ⟨hi, hrefl i (hsub i hi)⟩
    have := List.length_pos_of_mem hii
    omega
  | succ s ih =>
    intro rem hnd hsub i hi hlen
    by_cases hc : levelCond R rem i = true
    · exact ⟨i, hi, hc⟩
    · rw [levelCond_iff] at hc
      push_neg at hc
      obtain ⟨j, hj, hrij, hrji⟩ := hc
      have hsubs : reachSet R rem j ⊆ reachSet R rem i := by
        intro x hx
        obtain ⟨hxr, hrjx⟩ := List.mem_filter.mp hx
        exact List.mem_filter.mpr
          ⟨hxr, htrans i j x (hsub i hi) (hsub j hj) (hsub x hxr) hrij hrjx⟩
      have hii : i ∈ reachSet R rem i :=
        List.mem_filter.mpr ⟨hi, hrefl i (hsub i hi)⟩
      have hnotin : i ∉ reachSet R rem j := fun hmem =>
        hrji (List.mem_filter.mp hmem).2
      have hfin : (reachSet R rem j).toFinset ⊆ (reachSet R rem i).toFinset := by
        intro x hx
        rw [List.mem_toFinset] at hx ⊢
        exact hsubs hx
      have hssub : (reachSet R rem j).toFinset ⊂ (reachSet R rem i).toFinset :=
        (Finset.ssubset_iff_of_subset hfin).mpr
          ⟨i, List.mem_toFinset.mpr hii, fun hmem =>
            hnotin (List.mem_toFinset.mp hmem)⟩
      have hcard := Finset.card_lt_card hssub
      have hndj : (reachSet R rem j).Nodup := hnd.filter _
      have hndi : (reachSet R rem i).Nodup := hnd.filter _
      rw [List.toFinset_card_of_nodup hndj,
        List.toFinset_card_of_nodup hndi] at hcard
      exact ih rem hnd hsub j hj (by omega)

theorem levelAssign_ne_nil {n : Nat} {R : Nat → Nat → Bool}
    (hrefl : ∀ i, i < n → R i i = true)
    (htrans : ∀ i j k, i < n → j < n → k < n →
      R i j = true → R j k = true → R i k = true)
    {rem : List Nat} (hnd : rem.Nodup) (hsub : ∀ i ∈ rem, i < n)
    (hne : rem ≠ []) : levelAssign R rem ≠ [] := by
  obtain ⟨i, hi⟩ := List.exists_mem_of_ne_nil rem hne
  obtain ⟨m, hm, hcm⟩ := exists_levelCond hrefl htrans
    (reachSet R rem i).length rem hnd hsub i hi le_rfl
  intro hnil
  have hmem : m ∈ levelAssign R rem := List.mem_filter.mpr ⟨hm, hcm⟩
  rw [hnil] at hmem
  exact absurd hmem (List.not_mem_nil m)

theorem levelRemove_length_lt {R : Nat → Nat → Bool} {rem : List Nat}
    (ha : levelAssign R rem ≠ []) :
    (levelRemove R rem).length < rem.length := by
  rw [levelRemove, List.length_filter_lt_length_iff_exists]
  obtain ⟨x, hx⟩ := List.exists_mem_of_ne_nil _ ha
  have hxr : x ∈ rem := (List.mem_filter.mp hx).1
  refine ⟨x, hxr, ?_⟩
  have hcon : (levelAssign R rem).contains x = true := List.elem_iff.mpr hx
  rw [hcon]
  decide

theorem mem_levelRemove {R : Nat → Nat → Bool} {rem : List Nat} {i : Nat} :
    i ∈ levelRemove R rem ↔ i ∈ rem ∧ i ∉ levelAssign R rem := by
  rw [levelRemove, List.mem_filter]
  constructor
  · rintro ⟨hir, hcon⟩
    refine ⟨hir, fun hmem => ?_⟩
    have hc2 : (levelAssign R rem).contains i = true := List.elem_iff.mpr hmem
    rw [hc2] at hcon
    exact absurd hcon (by decide)
  · rintro ⟨hir, hnot⟩
    refine ⟨hir, ?_⟩
    cases hcon : (levelAssign R rem).contains i
    · rfl
    · exact absurd (List.elem_iff.mp hcon) hnot

theorem isEmpty_eq_false {α : Type} (l : List α) :
    l.isEmpty = false ↔ l ≠ [] := by
  cases l <;> simp

theorem partitionAux_nil {R : Nat → Nat → Bool} (fuel lvl : Nat) :
    partitionAux R fuel [] lvl = [] := by
  cases fuel <;> simp [partitionAux]

theorem partitionAux_cons {R : Nat → Nat → Bool} (fuel : Nat)
    (rem : List Nat) (lvl : Nat) (hne : rem.isEmpty = false)
    (ha : (levelAssign R rem).isEmpty = false) :
    partitionAux R (fuel + 1) rem lvl =
      ⟨lvl, levelAssign R rem⟩ ::
        partitionAux R fuel (levelRemove R rem) (lvl + 1) := by
  simp [partitionAux, hne, ha]

theorem partitionAux_err {R : Nat → Nat → Bool} (fuel : Nat)
    (rem : List Nat) (lvl : Nat) (hne : rem.isEmpty = false)
    (ha : (levelAssign R rem).isEmpty = true) :
    partitionAux R (fuel + 1) rem lvl = [] := by
  simp [partitionAux, hne, ha]

theorem partitionAux_fuel {R : Nat → Nat → Bool} :
    ∀ (f1 f2 : Nat) (rem : List Nat) (lvl : Nat),
      rem.length ≤ f1 → rem.length ≤ f2 →
      partitionAux R f1 rem lvl = partitionAux R f2 rem lvl := by
  intro f1
  induction f1 with
  | zero =>
    intro f2 rem lvl h1 _
    have : rem = [] := List.eq_nil_of_length_eq_zero (Nat.le_zero.mp h1)
    subst this
    rw [partitionAux_nil, partitionAux_nil]
  | succ f1 ih =>
    intro f2 rem lvl h1 h2
    cases f2 with
    | zero =>
      have : rem = [] := List.eq_nil_of_length_eq_zero (Nat.le_zero.mp h2)
      subst this
      rw [partitionAux_nil, partitionAux_nil]
    | succ f2 =>
      by_cases hre : rem = []
      · subst hre
        rw [partitionAux_nil, partitionAux_nil]
      · have hne : rem.isEmpty = false := (isEmpty_eq_false rem).mpr hre
        cases ha : (levelAssign R rem).isEmpty with
        | true => rw [partitionAux_err f1 rem lvl hne ha,
            partitionAux_err f2 rem lvl hne ha]
        | false =>
          have hlt : (levelRemove R rem).length < rem.length :=
            levelRemove_length_lt ((isEmpty_eq_false _).mp ha)
          rw [partitionAux_cons f1 rem lvl hne ha,
            partitionAux_cons f2 rem lvl hne ha,
            ih f2 (levelRemove R rem) (lvl + 1) (by omega) (by omega)]

theorem levelAssign_contains_eq {R : Nat → Nat → Bool} (rem : List Nat)
    (x : Nat) (hx : x ∈ rem) :
    (levelAssign R rem).contains x = levelCond R rem x := by
  by_cases hc : levelCond R rem x = true
  · rw [hc]
    exact List.elem_iff.mpr (mem_levelAssign.mpr ⟨hx, hc⟩)
  · have hc' : levelCond R rem x = false := by
      cases h : levelCond R rem x
      · rfl
      · exact absurd h hc
    rw [hc']
    cases hcon : (levelAssign R rem).contains x
    · rfl
    · have := (mem_levelAssign.mp (List.elem_iff.mp hcon)).2
      rw [hc'] at this
      exact absurd this (by decide)

theorem levelAssign_append_remove_perm {R : Nat → Nat → Bool}
    (rem : List Nat) :
    List.Perm (levelAssign R rem ++ levelRemove R rem) rem := by
  have heq : levelRemove R rem =
      rem.filter (fun i => !(levelCond R rem i)) := by
    rw [levelRemove]
    refine List.filter_congr ?_
    intro x hx
    rw [levelAssign_contains_eq rem x hx]
  rw [heq, levelAssign]
  exact List.filter_append_perm (levelCond R rem) rem

theorem partitionAux_perm {n : Nat} {R : Nat → Nat → Bool}
    (hrefl : ∀ i, i < n → R i i = true)
    (htrans : ∀ i j k, i < n → j < n → k < n →
      R i j = true → R j k = true → R i k = true) :
    ∀ (fuel : Nat) (rem : List Nat) (lvl : Nat), rem.Nodup →
      (∀ i ∈ rem, i < n) → rem.length ≤ fuel →
      List.Perm (((partitionAux R fuel rem lvl).map ISMLevel.elements).flatten)
        rem := by
  intro fuel
  induction fuel with
  | zero =>
    intro rem lvl _ _ hlen
    have : rem = [] := List.eq_nil_of_length_eq_zero (Nat.le_zero.mp hlen)
    subst this
    rw [partitionAux_nil]
    rfl
  | succ fuel ih =>
    intro rem lvl hnd hsub hlen
    by_cases hre : rem = []
    · subst hre
      rw [partitionAux_nil]
      rfl
    · have hne : rem.isEmpty = false := (isEmpty_eq_false rem).mpr hre
      have hass : levelAssign R rem ≠ [] :=
        levelAssign_ne_nil hrefl htrans hnd hsub hre
      have hass' : (levelAssign R rem).isEmpty = false :=
        (isEmpty_eq_false _).mpr hass
      rw [partitionAux_cons fuel rem lvl hne hass']
      simp only [List.map_cons, List.flatten_cons]
      have hltlen : (levelRemove R rem).length < rem.length :=
        levelRemove_length_lt hass
      have hrest := ih (levelRemove R rem) (lvl + 1) (hnd.filter _)
        (fun i hi => hsub i (mem_levelRemove.mp hi).1) (by omega)
      exact List.Perm.trans (List.Perm.append_left _ hrest)
        (levelAssign_append_remove_perm rem)

theorem matRel_closure_iff {n : Nat} {irm : List (List Nat)} {a b : Nat}
    (ha : a < n) (hb : b < n) :
    matRel (closureMatrix n irm) a b = true ↔
      fwAux (matRel irm) n a b = true := by
  show (mGet (closureMatrix n irm) a b == 1) = true ↔ _
  rw [mGet_closure ha hb]
  cases hfw : fwAux (matRel irm) n a b <;> simp [hfw]

theorem frmRel_refl (n : Nat) (ids : List String) (s : SSIMData) :
    ∀ i, i < n → matRel (closureMatrix n (encodeIRM n ids s)) i i = true := by
  intro i hi
  refine (matRel_closure_iff hi hi).mpr (fwAux_mono n ?_)
  show (mGet (encodeIRM n ids s) i i == 1) = true
  rw [mGet_encodeIRM hi hi, irmEntry_diag]
  rfl

theorem frmRel_trans (n : Nat) (ids : List String) (s : SSIMData) :
    ∀ i j k, i < n → j < n → k < n →
      matRel (closureMatrix n (encodeIRM n ids s)) i j = true →
      matRel (closureMatrix n (encodeIRM n ids s)) j k = true →
      matRel (closureMatrix n (encodeIRM n ids s)) i k = true := by
  intro i j k hi hj hk h1 h2
  exact (matRel_closure_iff hi hk).mpr (fwAux_trans hj
    ((matRel_closure_iff hi hj).mp h1) ((matRel_closure_iff hj hk).mp h2))

/-- C7: for every factor count `N ≥ 1` and every SSIM input, the level
list returned by the analysis partitions `{0..N-1}` exactly: the
concatenation of all `Level.elements` is a permutation of `0..N-1` (every
factor appears in exactly one level, none omitted or duplicated). -/
theorem levels_partition (n : Nat) (ids : List String) (s : SSIMData)
    (hn : 1 ≤ n) :
    List.Perm (((runISMAnalysis n ids s).levels.map ISMLevel.elements).flatten)
      (List.range n) := by
  refine partitionAux_perm (frmRel_refl n ids s) (frmRel_trans n ids s)
    n (List.range n) 1 (List.nodup_range n)
    (fun i hi => List.mem_range.mp hi) ?_
  rw [List.length_range]

/-- Witness for C7 at the 3-factor chain scenario. -/
theorem levels_partition_witness :
    List.Perm (((runISMAnalysis 3 ["A", "B", "C"]
      (fun a b => if a = "A" ∧ b = "B" then some SSIMValue.V
        else if a = "B" ∧ b = "C" then some SSIMValue.V
        else none)).levels.map ISMLevel.elements).flatten)
      (List.range 3) :=
  levels_partition 3 ["A", "B", "C"]
    (fun a b => if a = "A" ∧ b = "B" then some SSIMValue.V
      else if a = "B" ∧ b = "C" then some SSIMValue.V
      else none) (by decide)

theorem removeIter_succ (R : Nat → Nat → Bool) (rem : List Nat) (k : Nat) :
    removeIter R rem (k + 1) = removeIter R (levelRemove R rem) k := rfl

theorem removeIter_nil (R : Nat → Nat → Bool) :
    ∀ t : Nat, removeIter R [] t = [] := by
  intro t
  induction t with
  | zero => rfl
  | succ t ih =>
    rw [removeIter_succ]
    have : levelRemove R [] = [] := rfl
    rw [this, ih]

theorem removeIter_add (R : Nat → Nat → Bool) :
    ∀ (t1 t2 : Nat) (rem : List Nat),
      removeIter R rem (t1 + t2) = removeIter R (removeIter R rem t1) t2 := by
  intro t1
  induction t1 with
  | zero => intro t2 rem; rw [Nat.zero_add]; rfl
  | succ t1 ih =>
    intro t2 rem
    have : t1 + 1 + t2 = (t1 + t2) + 1 := by omega
    rw [this, removeIter_succ, removeIter_succ, ih]

theorem levelRemove_subset (R : Nat → Nat → Bool) (rem : List Nat) :
    levelRemove R rem ⊆ rem :=
  (List.filter_sublist rem).subset

theorem removeIter_subset (R : Nat → Nat → Bool) :
    ∀ (t : Nat) (rem : List Nat), removeIter R rem t ⊆ rem := by
  intro t
  induction t with
  | zero => intro rem x hx; exact hx
  | succ t ih =>
    intro rem x hx
    rw [removeIter_succ] at hx
    exact levelRemove_subset R rem (ih (levelRemove R rem) hx)

theorem removeIter_nodup (R : Nat → Nat → Bool) :
    ∀ (t : Nat) (rem : List Nat), rem.Nodup → (removeIter R rem t).Nodup := by
  intro t
  induction t with
  | zero => intro rem h; exact h
  | succ t ih =>
    intro rem h
    rw [removeIter_succ]
    exact ih _ (h.filter _)

theorem partitionAux_mem {R : Nat → Nat → Bool} :
    ∀ (fuel : Nat) (rem : List Nat) (lvl L : Nat) (elems : List Nat),
      ISMLevel.mk L elems ∈ partitionAux R fuel rem lvl →
      lvl ≤ L ∧ elems = levelAssign R (removeIter R rem (L - lvl)) := by
  intro fuel
  induction fuel with
  | zero =>
    intro rem lvl L elems h
    exact absurd h (List.not_mem_nil _)
  | succ fuel ih =>
    intro rem lvl L elems h
    by_cases hre : rem = []
    · subst hre
      rw [partitionAux_nil] at h
      exact absurd h (List.not_mem_nil _)
    · have hne : rem.isEmpty = false := (isEmpty_eq_false rem).mpr hre
      cases ha : (levelAssign R rem).isEmpty with
      | true =>
        rw [partitionAux_err fuel rem lvl hne ha] at h
        exact absurd h (List.not_mem_nil _)
      | false =>
        rw [partitionAux_cons fuel rem lvl hne ha] at h
        rcases List.mem_cons.mp h with heq | htail
        · obtain ⟨hL, helems⟩ := ISMLevel.mk.injEq L elems lvl
            (levelAssign R rem) ▸ heq
          subst hL
          refine ⟨Nat.le_refl L, ?_⟩
          rw [Nat.sub_self]
          exact helems
        · obtain ⟨hle, helems⟩ := ih (levelRemove R rem) (lvl + 1) L elems htail
          refine ⟨by omega, ?_⟩
          have hsplit : L - lvl = (L - (lvl + 1)) + 1 := by omega
          rw [hsplit, removeIter_succ]
          exact helems

theorem partitionAux_drop {n : Nat} {R : Nat → Nat → Bool}
    (hrefl : ∀ i, i < n → R i i = true)
    (htrans : ∀ i j k, i < n → j < n → k < n →
      R i j = true → R j k = true → R i k = true) :
    ∀ (t : Nat) (rem : List Nat) (lvl : Nat), rem.Nodup →
      (∀ i ∈ rem, i < n) →
      List.drop t (partitionAux R rem.length rem lvl) =
        partitionAux R (removeIter R rem t).length
          (removeIter R rem t) (lvl + t) := by
  intro t
  induction t with
  | zero =>
    intro rem lvl _ _
    rw [List.drop_zero, Nat.add_zero]
    rfl
  | succ t ih =>
    intro rem lvl hnd hsub
    by_cases hre : rem = []
    · subst hre
      rw [removeIter_nil, partitionAux_nil]
      simp [partitionAux]
    · have hne : rem.isEmpty = false := (isEmpty_eq_false rem).mpr hre
      have hass : levelAssign R rem ≠ [] :=
        levelAssign_ne_nil hrefl htrans hnd hsub hre
      have hass' : (levelAssign R rem).isEmpty = false :=
        (isEmpty_eq_false _).mpr hass
      have hlt : (levelRemove R rem).length < rem.length :=
        levelRemove_length_lt hass
      have hsucc : rem.length = (rem.length - 1) + 1 := by
        have : 0 < rem.length := List.length_pos.mpr hre
        omega
      rw [hsucc, partitionAux_cons (rem.length - 1) rem lvl hne hass',
        List.drop_succ_cons,
        partitionAux_fuel (rem.length - 1) (levelRemove R rem).length
          (levelRemove R rem) (lvl + 1) (by omega) (Nat.le_refl _),
        ih (levelRemove R rem) (lvl + 1) (hnd.filter _)
          (fun i hi => hsub i (levelRemove_subset R rem hi)),
        ← removeIter_succ]
      have : lvl + 1 + t = lvl + (t + 1) := by omega
      rw [this]

/-- C8: for every factor `i` assigned to level `L`, the sets computed at
the iteration `i` was removed are the restricted ones: the reachability
set of `i` over the then-remaining indices equals the
reachability/antecedent intersection over the then-remaining indices
(conjunct 1); the then-remaining indices are exactly the factors at level
`≥ L` (conjunct 2); hence `i`'s reachability restricted to factors at
level `≥ L` coincides with the intersection set computed at the removal
iteration, not with sets over all `N` indices of the FRM (conjunct 3). -/
theorem level_sets_restricted (n : Nat) (ids : List String) (s : SSIMData)
    (L : Nat) (elems : List Nat) (i j : Nat)
    (hmem : ISMLevel.mk L elems ∈ (runISMAnalysis n ids s).levels)
    (hi : i ∈ elems) :
    reachSet (matRel (runISMAnalysis n ids s).finalReachabilityMatrix)
        (removeIter (matRel (runISMAnalysis n ids s).finalReachabilityMatrix)
          (List.range n) (L - 1)) i =
      interSet (matRel (runISMAnalysis n ids s).finalReachabilityMatrix)
        (removeIter (matRel (runISMAnalysis n ids s).finalReachabilityMatrix)
          (List.range n) (L - 1)) i ∧
    (j ∈ removeIter (matRel (runISMAnalysis n ids s).finalReachabilityMatrix)
        (List.range n) (L - 1) ↔
      ∃ L2 elems2,
        ISMLevel.mk L2 elems2 ∈ (runISMAnalysis n ids s).levels ∧
        j ∈ elems2 ∧ L ≤ L2) ∧
    ((matRel (runISMAnalysis n ids s).finalReachabilityMatrix i j = true ∧
      ∃ L2 elems2,
        ISMLevel.mk L2 elems2 ∈ (runISMAnalysis n ids s).levels ∧
        j ∈ elems2 ∧ L ≤ L2) ↔
      j ∈ interSet (matRel (runISMAnalysis n ids s).finalReachabilityMatrix)
        (removeIter (matRel (runISMAnalysis n ids s).finalReachabilityMatrix)
          (List.range n) (L - 1)) i) := by
  have hfrm : (runISMAnalysis n ids s).finalReachabilityMatrix =
      closureMatrix n (encodeIRM n ids s) := rfl
  have hlevels : (runISMAnalysis n ids s).levels =
      partitionAux (matRel (closureMatrix n (encodeIRM n ids s))) n
        (List.range n) 1 := rfl
  rw [hfrm, hlevels]
  rw [hlevels] at hmem
  have hrefl := frmRel_refl n ids s
  have htrans := frmRel_trans n ids s
  obtain ⟨hL1, helems⟩ :=
    partitionAux_mem n (List.range n) 1 L elems hmem
  rw [helems] at hi
  have hnd : (removeIter (matRel (closureMatrix n (encodeIRM n ids s)))
      (List.range n) (L - 1)).Nodup :=
    removeIter_nodup _ _ _ (List.nodup_range n)
  have hsubL : ∀ x ∈ removeIter (matRel (closureMatrix n (encodeIRM n ids s)))
      (List.range n) (L - 1), x < n :=
    fun x hx => List.mem_range.mp (removeIter_subset _ _ _ hx)
  have hcond : levelCond (matRel (closureMatrix n (encodeIRM n ids s)))
      (removeIter (matRel (closureMatrix n (encodeIRM n ids s)))
        (List.range n) (L - 1)) i = true :=
    (mem_levelAssign.mp hi).2
  rw [levelCond] at hcond
  have hc1 := beq_iff_eq.mp hcond
  have hdrop := partitionAux_drop hrefl htrans (L - 1) (List.range n) 1
    (List.nodup_range n) (fun x hx => List.mem_range.mp hx)
  have hfix : 1 + (L - 1) = L := by omega
  rw [hfix] at hdrop
  have hfuel2 : partitionAux (matRel (closureMatrix n (encodeIRM n ids s)))
      (List.range n).length (List.range n) 1 =
      partitionAux (matRel (closureMatrix n (encodeIRM n ids s))) n
        (List.range n) 1 :=
    partitionAux_fuel _ _ _ _ (Nat.le_refl _) (by rw [List.length_range])
  rw [hfuel2] at hdrop
  have hperm := partitionAux_perm hrefl htrans
    (removeIter (matRel (closureMatrix n (encodeIRM n ids s)))
      (List.range n) (L - 1)).length
    (removeIter (matRel (closureMatrix n (encodeIRM n ids s)))
      (List.range n) (L - 1)) L hnd hsubL (Nat.le_refl _)
  have hiff : (j ∈ removeIter (matRel (closureMatrix n (encodeIRM n ids s)))
      (List.range n) (L - 1) ↔
      ∃ L2 elems2,
        ISMLevel.mk L2 elems2 ∈
          partitionAux (matRel (closureMatrix n (encodeIRM n ids s))) n
            (List.range n) 1 ∧
        j ∈ elems2 ∧ L ≤ L2) := by
    constructor
    · intro hj
      have hjf : j ∈ ((partitionAux
          (matRel (closureMatrix n (encodeIRM n ids s)))
          (removeIter (matRel (closureMatrix n (encodeIRM n ids s)))
            (List.range n) (L - 1)).length
          (removeIter (matRel (closureMatrix n (encodeIRM n ids s)))
            (List.range n) (L - 1)) L).map ISMLevel.elements).flatten :=
        hperm.mem_iff.mpr hj
      rw [List.mem_flatten] at hjf
      obtain ⟨l, hl, hjl⟩ := hjf
      rw [List.mem_map] at hl
      obtain ⟨lv, hlv, rfl⟩ := hl
      obtain ⟨L2, elems2⟩ := lv
      have hge := (partitionAux_mem _ _ L L2 elems2 hlv).1
      have hlvmem : ISMLevel.mk L2 elems2 ∈
          partitionAux (matRel (closureMatrix n (encodeIRM n ids s))) n
            (List.range n) 1 := by
        rw [← hdrop] at hlv
        exact List.mem_of_mem_drop hlv
      exact ⟨L2, elems2, hlvmem, hjl, hge⟩
    · rintro ⟨L2, elems2, hm2, hj2, hLL2⟩
      obtain ⟨h1L2, helems2⟩ :=
        partitionAux_mem n (List.range n) 1 L2 elems2 hm2
      rw [helems2] at hj2
      have hj2r : j ∈ removeIter (matRel (closureMatrix n (encodeIRM n ids s)))
          (List.range n) (L2 - 1) := (mem_levelAssign.mp hj2).1
      have hsplitL : L2 - 1 = (L - 1) + (L2 - L) := by omega
      rw [hsplitL, removeIter_add] at hj2r
      exact removeIter_subset _ _ _ hj2r
  refine ⟨hc1, hiff, ?_⟩
  constructor
  · rintro ⟨hRij, hex⟩
    rw [← hc1]
    exact List.mem_filter.mpr ⟨hiff.mpr hex, hRij⟩
  · intro hji
    rw [← hc1] at hji
    obtain ⟨hjrem, hRij⟩ := List.mem_filter.mp hji
    exact ⟨hRij, hiff.mp hjrem⟩

/-- Witness for C8 at the degenerate single-factor analysis (factor 0 is
assigned to level 1). -/
theorem level_sets_restricted_witness :
    reachSet (matRel (runISMAnalysis 1 ["A"]
        (fun _ _ => none)).finalReachabilityMatrix)
        (removeIter (matRel (runISMAnalysis 1 ["A"]
          (fun _ _ => none)).finalReachabilityMatrix)
          (List.range 1) (1 - 1)) 0 =
      interSet (matRel (runISMAnalysis 1 ["A"]
        (fun _ _ => none)).finalReachabilityMatrix)
        (removeIter (matRel (runISMAnalysis 1 ["A"]
          (fun _ _ => none)).finalReachabilityMatrix)
          (List.range 1) (1 - 1)) 0 ∧
    (0 ∈ removeIter (matRel (runISMAnalysis 1 ["A"]
        (fun _ _ => none)).finalReachabilityMatrix)
        (List.range 1) (1 - 1) ↔
      ∃ L2 elems2,
        ISMLevel.mk L2 elems2 ∈ (runISMAnalysis 1 ["A"]
          (fun _ _ => none)).levels ∧
        0 ∈ elems2 ∧ 1 ≤ L2) ∧
    ((matRel (runISMAnalysis 1 ["A"]
        (fun _ _ => none)).finalReachabilityMatrix 0 0 = true ∧
      ∃ L2 elems2,
        ISMLevel.mk L2 elems2 ∈ (runISMAnalysis 1 ["A"]
          (fun _ _ => none)).levels ∧
        0 ∈ elems2 ∧ 1 ≤ L2) ↔
      0 ∈ interSet (matRel (runISMAnalysis 1 ["A"]
        (fun _ _ => none)).finalReachabilityMatrix)
        (removeIter (matRel (runISMAnalysis 1 ["A"]
          (fun _ _ => none)).finalReachabilityMatrix)
          (List.range 1) (1 - 1)) 0) :=
  level_sets_restricted 1 ["A"] (fun _ _ => none) 1 [0] 0 0
    (by decide) (by decide)

/-- Witness for C3 at the concrete factor count `N = 7`
(split point `3.5`). -/
theorem splitPoint_exact_witness :
    splitPoint 11 = (5.5 : ℚ) ∧ splitPoint 12 = (6 : ℚ) ∧
    (splitPoint 11 : ℚ) ≠ (5 : ℚ) ∧ (splitPoint 11 : ℚ) ≠ (6 : ℚ) ∧
    2 * splitPoint 7 = ((7 : Nat) : ℚ) :=
  splitPoint_exact 7
